import Mathlib

/-!
Verification of the JMESPath tree interpreter (`src/interpreter.rs`).

The Rust interpreter is shallowly embedded: `Value` models the runtime
`Variable` type, `Ast` models the parsed expression tree, and `interpret`
models `TreeInterpreter::interpret` with the mutable `Context.offset`
threaded explicitly (each evaluation returns the value together with the
offset the context holds afterwards; errors carry the offset from which
their coordinates are computed).  The `slice` / `adjust_slice_endpoint`
functions are ported directly from the source.  Helpers of the value
model (`variable.rs`) are not part of the sources and are modelled from
the spec where noted.
-/

namespace Jmespath

mutual

/-- Runtime value (`Variable` in the source).  Modelled from the spec:
`variable.rs` is not among the sources; variants follow the spec's data
model (null, boolean, number, string, array, object) plus the `Expref`
variant used by the interpreter's `Ast::Expref` arm.  The numeric payload
is modelled as an integer; no claim depends on the numeric representation.
Objects are ordered association lists with unique keys. -/
inductive Value where
  | null : Value
  | bool (b : Bool) : Value
  | number (n : Int) : Value
  | string (s : String) : Value
  | array (items : List Value) : Value
  | object (entries : List (String × Value)) : Value
  | expref (ast : Ast) : Value
  deriving BEq

/-- Comparison operator of `Ast::Comparison` (defined in `ast.rs`, not among
the sources; modelled from the spec's "typed comparison"). -/
inductive Comparator where
  | eq | ne | lt | lte | gt | gte
  deriving BEq

/-- Abstract syntax tree (`Ast` in `ast.rs`, reconstructed from the
exhaustive match in `TreeInterpreter::interpret`).  Every variant carries
its source byte offset.  `multiHash` elements model `KeyValuePair` as
(key, value) pairs. -/
inductive Ast where
  | identity (offset : Nat) : Ast
  | field (name : String) (offset : Nat) : Ast
  | index (idx : Int) (offset : Nat) : Ast
  | subexpr (lhs rhs : Ast) (offset : Nat) : Ast
  | or (lhs rhs : Ast) (offset : Nat) : Ast
  | and (lhs rhs : Ast) (offset : Nat) : Ast
  | not (node : Ast) (offset : Nat) : Ast
  | condition (predicate thenBranch : Ast) (offset : Nat) : Ast
  | comparison (comparator : Comparator) (lhs rhs : Ast) (offset : Nat) : Ast
  | objectValues (node : Ast) (offset : Nat) : Ast
  | projection (lhs rhs : Ast) (offset : Nat) : Ast
  | flatten (node : Ast) (offset : Nat) : Ast
  | multiList (elements : List Ast) (offset : Nat) : Ast
  | multiHash (elements : List (Ast × Ast)) (offset : Nat) : Ast
  | function (name : String) (args : List Ast) (offset : Nat) : Ast
  | expref (ast : Ast) (offset : Nat) : Ast
  | slice (start stop : Option Int) (step : Int) (offset : Nat) : Ast
  | literal (value : Value) (offset : Nat) : Ast
  deriving BEq

end

/-- Modelled from the spec: `Variable::get_value` looks a field name up in an
object and is absent-tolerant ("looks up `name` in input if it is an object;
returns null (not an error) if absent or input is not an object"). -/
def Value.get_value (v : Value) (name : String) : Option Value :=
  match v with
  | .object entries => List.lookup name entries
  | _ => none

/-- Modelled from the spec: `Variable::get_index` does a positional lookup
from the front of an array; out of range (or not an array) yields none. -/
def Value.get_index (v : Value) (i : Nat) : Option Value :=
  match v with
  | .array items => items[i]?
  | _ => none

/-- Modelled from the spec: `Variable::get_negative_index` looks up from the
end of an array using the magnitude (`get_negative_index 1` is the last
element); out of range (or not an array) yields none. -/
def Value.get_negative_index (v : Value) (n : Nat) : Option Value :=
  match v with
  | .array items =>
      if 0 < n ∧ n ≤ items.length then items[items.length - n]? else none
  | _ => none

/-- Modelled from the spec: `Variable::as_array` exposes the element list of
an array value. -/
def Value.as_array : Value → Option (List Value)
  | .array items => some items
  | _ => none

/-- Modelled from the spec: `Variable::is_null`. -/
def Value.is_null : Value → Bool
  | .null => true
  | _ => false

/-- Modelled from the spec: `Variable::is_truthy` — "null, false, empty
string, empty array, empty object are falsy; everything else (including `0`
and numeric zero) is truthy". -/
def Value.is_truthy : Value → Bool
  | .null => false
  | .bool b => b
  | .string s => !(s == "")
  | .array items => !items.isEmpty
  | .object entries => !entries.isEmpty
  | _ => true

/-- Modelled from the spec: `Variable::get_type` names the type of a value,
used for the payload of `InvalidKey` errors. -/
def Value.get_type : Value → String
  | .null => "null"
  | .bool _ => "boolean"
  | .number _ => "number"
  | .string _ => "string"
  | .array _ => "array"
  | .object _ => "object"
  | .expref _ => "expref"

/-- Modelled from the spec: `Variable::compare` — "apply typed comparison; if
operands are not comparable under `op`, result is null": equality operators
compare any two values structurally, ordering operators only numbers. -/
def Value.compare (l : Value) (cmp : Comparator) (r : Value) : Option Bool :=
  match cmp with
  | .eq => some (l == r)
  | .ne => some (!(l == r))
  | _ =>
    match l, r with
    | .number a, .number b =>
        some (match cmp with
          | .lt => decide (a < b)
          | .lte => decide (a ≤ b)
          | .gt => decide (b < a)
          | .gte => decide (b ≤ a)
          | _ => false)
    | _, _ => none

/-- Port of `adjust_slice_endpoint` (interpreter.rs lines 281-299). -/
def adjust_slice_endpoint (len endpoint step : Int) : Int :=
  if endpoint < 0 then
    let adjusted := endpoint + len
    if 0 ≤ adjusted then adjusted
    else if step < 0 then -1
    else 0
  else if endpoint < len then endpoint
  else if step < 0 then len - 1
  else len

/-- Port of the `while i < b` loop of `slice` for a positive step (the
`0 < step` conjunct is the loop's calling precondition, made part of the
guard so the function is total). -/
def sliceLoopPos (array : List Value) (b step : Int) (i : Int) : List Value :=
  if _h : 0 < step ∧ i < b then
    array.getD i.toNat Value.null :: sliceLoopPos array b step (i + step)
  else []
termination_by (b - i).toNat
decreasing_by omega

/-- Port of the `while i > b` loop of `slice` for a negative step. -/
def sliceLoopNeg (array : List Value) (b step : Int) (i : Int) : List Value :=
  if _h : step < 0 ∧ b < i then
    array.getD i.toNat Value.null :: sliceLoopNeg array b step (i + step)
  else []
termination_by (i - b).toNat
decreasing_by omega

/-- Port of `slice` (interpreter.rs lines 248-279). -/
def slice (array : List Value) (start stop : Option Int) (step : Int) : List Value :=
  let len : Int := array.length
  if len = 0 then []
  else
    let a : Int :=
      match start with
      | some starting_index => adjust_slice_endpoint len starting_index step
      | none => if step < 0 then len - 1 else 0
    let b : Int :=
      match stop with
      | some ending_index => adjust_slice_endpoint len ending_index step
      | none => if step < 0 then -1 else len
    if 0 < step then sliceLoopPos array b step a else sliceLoopNeg array b step a

/-- Runtime errors raised by the interpreter (`RuntimeError` in the source;
the error type itself lives outside the sources).  Coordinates are modelled
by the byte offset they are computed from; the `external` variant stands for
the opaque, externally-defined errors of function implementations. -/
inductive RuntimeError where
  | invalidKey (offset : Nat) (actual : String) : RuntimeError
  | unknownFunction (offset : Nat) (function : String) : RuntimeError
  | invalidSlice (offset : Nat) : RuntimeError
  | external (message : String) : RuntimeError
  deriving DecidableEq

/-- The kind of a runtime error with its source coordinates stripped, used
to state claims that constrain the error kind and payload but not the
reported position. -/
inductive ErrKind where
  | invalidKey (actual : String) : ErrKind
  | unknownFunction (function : String) : ErrKind
  | invalidSlice : ErrKind
  | external (message : String) : ErrKind
  deriving DecidableEq

/-- Strips the coordinates from a runtime error. -/
def RuntimeError.kind : RuntimeError → ErrKind
  | .invalidKey _ actual => .invalidKey actual
  | .unknownFunction _ f => .unknownFunction f
  | .invalidSlice _ => .invalidSlice
  | .external m => .external m

/-- A registered function capability (`JPFunction::evaluate`): receives the
eagerly evaluated arguments and the context (modelled by its offset) and
returns a result together with the context offset it leaves behind. -/
abbrev FnImpl := List Value → Nat → Except RuntimeError (Value × Nat)

/-- The function registry, a name-to-capability mapping. -/
abbrev Functions := List (String × FnImpl)

/-- Registry lookup (`self.functions.get(name)`). -/
def lookupFn (fns : Functions) (name : String) : Option FnImpl :=
  List.lookup name fns

/-- The observable outcome of an evaluation: the resulting value, or the
kind of the error raised — the context's final offset (pure diagnostic
state) is erased. -/
def observe (r : Except RuntimeError (Value × Nat)) : Except ErrKind Value :=
  match r with
  | .ok (v, _) => .ok v
  | .error e => .error e.kind

/-- Successful results thread through `try!`-style binds unchanged. -/
@[simp] lemma ok_bind {ε α β : Type} (a : α) (f : α → Except ε β) :
    (Except.ok a : Except ε α) >>= f = f a := rfl

/-- Errors short-circuit `try!`-style binds. -/
@[simp] lemma error_bind {ε α β : Type} (e : ε) (f : α → Except ε β) :
    (Except.error e : Except ε α) >>= f = Except.error e := rfl

/-- Insertion into a key-sorted association list, replacing the value when
the key is already present — the behaviour of `BTreeMap::insert` used by the
`MultiHash` arm. -/
def sortedInsert (k : String) (v : Value) : List (String × Value) → List (String × Value)
  | [] => [(k, v)]
  | (k0, v0) :: rest =>
      if k < k0 then (k, v) :: (k0, v0) :: rest
      else if k0 < k then (k0, v0) :: sortedInsert k v rest
      else (k, v) :: rest

mutual

/-- Port of `TreeInterpreter::interpret`.  The mutable `ctx.offset` is made
explicit: every call returns the evaluated value together with the offset
the context holds afterwards (each arm first sets the offset to its own
node's offset, exactly as the source does). -/
def interpret (fns : Functions) (data : Value) (node : Ast) : Except RuntimeError (Value × Nat) :=
  match node with
  | .subexpr lhs rhs _offset => do
      let (left_result, _) ← interpret fns data lhs
      interpret fns left_result rhs
  | .field name offset =>
      .ok ((data.get_value name).getD .null, offset)
  | .identity offset => .ok (data, offset)
  | .literal value offset => .ok (value, offset)
  | .index idx offset =>
      match (if 0 ≤ idx then data.get_index idx.toNat
             else data.get_negative_index ((-1 * idx)).toNat) with
      | some value => .ok (value, offset)
      | none => .ok (.null, offset)
  | .or lhs rhs _offset => do
      let (left, o1) ← interpret fns data lhs
      if left.is_truthy then .ok (left, o1) else interpret fns data rhs
  | .and lhs rhs _offset => do
      let (left, o1) ← interpret fns data lhs
      if !left.is_truthy then .ok (left, o1) else interpret fns data rhs
  | .not inner _offset => do
      let (result, o1) ← interpret fns data inner
      .ok (.bool (!result.is_truthy), o1)
  | .condition predicate thenBranch _offset => do
      let (cond_result, o1) ← interpret fns data predicate
      if cond_result.is_truthy then interpret fns data thenBranch
      else .ok (.null, o1)
  | .comparison cmp lhs rhs _offset => do
      let (left, _) ← interpret fns data lhs
      let (right, o2) ← interpret fns data rhs
      .ok ((match left.compare cmp right with
            | some b => Value.bool b
            | none => Value.null), o2)
  | .objectValues inner _offset => do
      let (subject, o1) ← interpret fns data inner
      match subject with
      | .object entries => .ok (.array (entries.map Prod.snd), o1)
      | _ => .ok (.null, o1)
  | .projection lhs rhs _offset => do
      let (left, o1) ← interpret fns data lhs
      match left.as_array with
      | none => .ok (.null, o1)
      | some arr => do
          let (collected, o2) ← interpretProjList fns rhs arr o1
          .ok (.array collected, o2)
  | .flatten inner _offset => do
      let (v, o1) ← interpret fns data inner
      match v.as_array with
      | none => .ok (.null, o1)
      | some a =>
          .ok (.array (a.foldl (fun collected element =>
                match element.as_array with
                | some inner_array => collected ++ inner_array
                | none => collected ++ [element]) []), o1)
  | .multiList elements offset =>
      if data.is_null then .ok (.null, offset)
      else do
        let (collected, o2) ← interpretArgs fns data elements offset
        .ok (.array collected, o2)
  | .multiHash elements offset =>
      if data.is_null then .ok (.null, offset)
      else do
        let (collected, o2) ← interpretHash fns data elements [] offset
        .ok (.object collected, o2)
  | .function name args offset => do
      let (fn_args, _) ← interpretArgs fns data args offset
      match lookupFn fns name with
      | some f => f fn_args offset
      | none => .error (.unknownFunction offset name)
  | .expref ast offset => .ok (.expref ast, offset)
  | .slice start stop step offset =>
      if step = 0 then .error (.invalidSlice offset)
      else
        match data.as_array with
        | some arr => .ok (.array (slice arr start stop step), offset)
        | none => .ok (.null, offset)
termination_by (sizeOf node, 0)

/-- The `for node in elements`/`for arg in args` loops of the `MultiList` and
`Function` arms: evaluates a list of nodes left to right against the same
input, threading the context offset. -/
def interpretArgs (fns : Functions) (data : Value) (nodes : List Ast) (off : Nat) :
    Except RuntimeError (List Value × Nat) :=
  match nodes with
  | [] => .ok ([], off)
  | n :: rest => do
      let (v, o1) ← interpret fns data n
      let (vs, o2) ← interpretArgs fns data rest o1
      .ok (v :: vs, o2)
termination_by (sizeOf nodes, 0)

/-- The `for element in left` loop of the `Projection` arm: evaluates `rhs`
against each element, keeping only non-null results. -/
def interpretProjList (fns : Functions) (rhs : Ast) (elems : List Value) (off : Nat) :
    Except RuntimeError (List Value × Nat) :=
  match elems with
  | [] => .ok ([], off)
  | e :: rest => do
      let (current, o1) ← interpret fns e rhs
      let (vs, o2) ← interpretProjList fns rhs rest o1
      .ok (if current.is_null then vs else current :: vs, o2)
termination_by (sizeOf rhs, elems.length + 1)

/-- The `for kvp in elements` loop of the `MultiHash` arm: evaluates each
key and value, inserting string-keyed results into the sorted accumulator
and failing with `InvalidKey` on a non-string key (the error's coordinates
are computed from the offset the context holds after evaluating the value
expression, exactly as in the source). -/
def interpretHash (fns : Functions) (data : Value) (pairs : List (Ast × Ast))
    (acc : List (String × Value)) (off : Nat) :
    Except RuntimeError (List (String × Value) × Nat) :=
  match pairs with
  | [] => .ok (acc, off)
  | (k, v) :: rest => do
      let (key, _) ← interpret fns data k
      let (value, o2) ← interpret fns data v
      match key with
      | .string s => interpretHash fns data rest (sortedInsert s value acc) o2
      | _ => .error (.invalidKey o2 key.get_type)
termination_by (sizeOf pairs, 0)

end

/-! ### Specification-side definitions

These definitions are written from the claims' wording (not from the
source) and are compared with the source-derived definitions above. -/

/-- Written from C1's words: a provided slice endpoint is "normalized by
adding len if negative, then clamping a still-negative value to -1
(negative step) or 0 (positive step) and a value ≥ len to len-1 (negative
step) or len (positive step)". -/
def normalizeEndpoint (len e step : Int) : Int :=
  let e1 := if e < 0 then e + len else e
  let e2 := if e1 < 0 then (if step < 0 then -1 else 0) else e1
  if len ≤ e2 then (if step < 0 then len - 1 else len) else e2

/-- Written from C1's words: "elements are collected from the normalized
start, stepping by step, while index < stop (positive step) or
index > stop (negative step)". -/
def strideCollect (array : List Value) (stop step i : Int) : List Value :=
  if _h : (0 < step ∧ i < stop) ∨ (step < 0 ∧ stop < i) then
    array.getD i.toNat Value.null :: strideCollect array stop step (i + step)
  else []
termination_by (if 0 < step then stop - i else i - stop).toNat
decreasing_by split_ifs <;> omega

/-- Written from C1's words: the full stride slice with defaulted and
normalized endpoints; "an empty input array yields an empty array
regardless of the bounds". -/
def sliceSpec (array : List Value) (start stop : Option Int) (step : Int) : List Value :=
  if array.isEmpty then []
  else
    let len : Int := array.length
    let a : Int :=
      match start with
      | none => if 0 < step then 0 else len - 1
      | some e => normalizeEndpoint len e step
    let b : Int :=
      match stop with
      | none => if 0 < step then len else -1
      | some e => normalizeEndpoint len e step
    strideCollect array b step a

lemma adjust_eq_normalize (len e step : Int) (hlen : 1 ≤ len) :
    adjust_slice_endpoint len e step = normalizeEndpoint len e step := by
  simp only [adjust_slice_endpoint, normalizeEndpoint]
  split_ifs <;> omega

lemma strideCollect_eq_pos (array : List Value) (b step : Int) (hs : 0 < step) :
    ∀ i, strideCollect array b step i = sliceLoopPos array b step i := by
  suffices H : ∀ n i, (b - i).toNat ≤ n →
      strideCollect array b step i = sliceLoopPos array b step i by
    intro i; exact H (b - i).toNat i le_rfl
  intro n
  induction n with
  | zero =>
      intro i hi
      rw [strideCollect, sliceLoopPos, dif_neg (by omega), dif_neg (by omega)]
  | succ n ih =>
      intro i hi
      rw [strideCollect, sliceLoopPos]
      by_cases hib : i < b
      · rw [dif_pos (Or.inl ⟨hs, hib⟩), dif_pos ⟨hs, hib⟩, ih (i + step) (by omega)]
      · rw [dif_neg (by omega), dif_neg (by omega)]

lemma strideCollect_eq_neg (array : List Value) (b step : Int) (hs : step < 0) :
    ∀ i, strideCollect array b step i = sliceLoopNeg array b step i := by
  suffices H : ∀ n i, (i - b).toNat ≤ n →
      strideCollect array b step i = sliceLoopNeg array b step i by
    intro i; exact H (i - b).toNat i le_rfl
  intro n
  induction n with
  | zero =>
      intro i hi
      rw [strideCollect, sliceLoopNeg, dif_neg (by omega), dif_neg (by omega)]
  | succ n ih =>
      intro i hi
      rw [strideCollect, sliceLoopNeg]
      by_cases hib : b < i
      · rw [dif_pos (Or.inr ⟨hs, hib⟩), dif_pos ⟨hs, hib⟩, ih (i + step) (by omega)]
      · rw [dif_neg (by omega), dif_neg (by omega)]

/-- The source's slice agrees with the claim-worded stride slice for every
non-zero step. -/
lemma slice_eq_sliceSpec (array : List Value) (start stop : Option Int) (step : Int)
    (hstep : step ≠ 0) :
    slice array start stop step = sliceSpec array start stop step := by
  simp only [slice, sliceSpec]
  by_cases hempty : array.length = 0
  · rw [List.length_eq_zero] at hempty
    subst hempty
    simp
  · have hlistne : array.isEmpty = false := by
      cases array with
      | nil => simp at hempty
      | cons a t => rfl
    have hlen : (1 : Int) ≤ array.length := by
      omega
    rw [if_neg (by exact_mod_cast hempty), hlistne]
    simp only [Bool.false_eq_true, if_false]
    by_cases hpos : 0 < step
    · have hneg : ¬ step < 0 := by omega
      simp only [hneg, if_false, hpos, if_true]
      cases start <;> cases stop <;>
        simp only [adjust_eq_normalize _ _ _ hlen] <;>
        rw [strideCollect_eq_pos array _ step hpos]
    · have hneg : step < 0 := by omega
      simp only [hneg, if_true, hpos, if_false]
      cases start <;> cases stop <;>
        simp only [adjust_eq_normalize _ _ _ hlen] <;>
        rw [strideCollect_eq_neg array _ step hneg]

/-- C1: a `Slice` node with `step = 0` fails with `InvalidSlice` on every
input; for `step ≠ 0` applied to an array the result is the stride slice
described by the claim (absent endpoints defaulted, provided endpoints
normalized, elements collected from the normalized start while
`index < stop` for positive step or `index > stop` for negative step);
an empty input array yields an empty array regardless of the bounds. -/
theorem slice_evaluation_rule (fns : Functions) (data : Value)
    (start stop : Option Int) (step : Int) (o : Nat) :
    (step = 0 → interpret fns data (.slice start stop step o) = .error (.invalidSlice o))
    ∧ (step ≠ 0 → ∀ arr, data = .array arr →
        interpret fns data (.slice start stop step o)
          = .ok (.array (sliceSpec arr start stop step), o))
    ∧ sliceSpec [] start stop step = [] := by
  refine ⟨?_, ?_, ?_⟩
  · intro h
    subst h
    rw [interpret, if_pos rfl]
  · intro h arr hdata
    subst hdata
    rw [interpret, if_neg h]
    simp only [Value.as_array]
    rw [slice_eq_sliceSpec arr start stop step h]
  · simp [sliceSpec]

/-- Witness for C1 at a concrete input: slicing `[10, 20, 30, 40]` with
`start = 1`, absent stop and `step = 2` yields `[20, 40]`. -/
theorem slice_evaluation_rule_witness :
    interpret [] (.array [.number 10, .number 20, .number 30, .number 40])
        (.slice (some 1) none 2 7)
      = .ok (.array [.number 20, .number 40], 7) := by
  have h := (slice_evaluation_rule []
      (.array [.number 10, .number 20, .number 30, .number 40])
      (some 1) none 2 7).2.1 (by decide) _ rfl
  rw [h]
  simp +decide [sliceSpec, strideCollect, normalizeEndpoint]

/-- C9: for a `Slice` node with `step ≠ 0`, a non-array input evaluates
successfully to null; the `step = 0` check comes first, so a zero step
makes the node fail on every input (array or not). -/
theorem slice_nonarray_rule (fns : Functions) (data : Value)
    (start stop : Option Int) (step : Int) (o : Nat) :
    (step ≠ 0 → data.as_array = none →
        interpret fns data (.slice start stop step o) = .ok (.null, o))
    ∧ (step = 0 → interpret fns data (.slice start stop step o)
        = .error (.invalidSlice o)) := by
  constructor
  · intro h harr
    rw [interpret, if_neg h, harr]
  · intro h
    subst h
    rw [interpret, if_pos rfl]

/-- Witness for C9 at a concrete input: slicing the non-array `true` with
`step = 1` yields null, and with `step = 0` it fails with `InvalidSlice`. -/
theorem slice_nonarray_rule_witness :
    interpret [] (.bool true) (.slice none none 1 3) = .ok (.null, 3)
    ∧ interpret [] (.bool true) (.slice none none 0 3)
        = .error (.invalidSlice 3) :=
  ⟨(slice_nonarray_rule [] (.bool true) none none 1 3).1 (by decide) rfl,
   (slice_nonarray_rule [] (.bool true) none none 0 3).2 rfl⟩

/-- C3: `Field(name)` yields null (a successful result) when the input is
not an object or the key is absent, and `Index(i)` — front lookup for
`i ≥ 0`, lookup from the end by magnitude for `i < 0` — yields null
(success, never an error) whenever the position is out of range, on an
empty array, or on a non-array input. -/
theorem field_index_null_rule (fns : Functions) (data : Value) (name : String)
    (i : Int) (o : Nat) :
    (∀ entries, data = .object entries → List.lookup name entries = none →
        interpret fns data (.field name o) = .ok (.null, o))
    ∧ ((∀ entries, data ≠ .object entries) →
        interpret fns data (.field name o) = .ok (.null, o))
    ∧ (∀ arr, data = .array arr →
        ((0 ≤ i ∧ arr.length ≤ i.toNat) ∨ (i < 0 ∧ arr.length < i.natAbs)) →
        interpret fns data (.index i o) = .ok (.null, o))
    ∧ (data.as_array = none → interpret fns data (.index i o) = .ok (.null, o)) := by
  refine ⟨?_, ?_, ?_, ?_⟩
  · intro entries hdata hlook
    subst hdata
    rw [interpret]
    simp [Value.get_value, hlook]
  · intro hne
    have hgv : data.get_value name = none := by
      cases data with
      | object entries => exact absurd rfl (hne entries)
      | _ => rfl
    rw [interpret, hgv]
    rfl
  · intro arr hdata hrange
    subst hdata
    rw [interpret]
    rcases hrange with ⟨hpos, hlen⟩ | ⟨hneg, hlen⟩
    · rw [if_pos hpos]
      have hidx : (Value.array arr).get_index i.toNat = none := by
        simp [Value.get_index, List.getElem?_eq_none hlen]
      rw [hidx]
    · rw [if_neg (by omega)]
      have hcond : ¬(0 < ((-1 * i)).toNat ∧ ((-1 * i)).toNat ≤ arr.length) := by
        omega
      have hidx : (Value.array arr).get_negative_index ((-1 * i)).toNat = none := by
        simp only [Value.get_negative_index, if_neg hcond]
      rw [hidx]
  · intro harr
    have h1 : (if 0 ≤ i then data.get_index i.toNat
        else data.get_negative_index ((-1 * i)).toNat) = none := by
      cases data <;> first
        | (split <;> rfl)
        | simp [Value.as_array] at harr
    rw [interpret, h1]

/-- Witness for C3 at concrete inputs: a missing field on an object, an
out-of-range positive index, and a negative index into an empty array all
yield null successfully. -/
theorem field_index_null_rule_witness :
    interpret [] (.object [("a", .number 1)]) (.field "b" 2) = .ok (.null, 2)
    ∧ interpret [] (.array [.number 7]) (.index 5 3) = .ok (.null, 3)
    ∧ interpret [] (.array []) (.index (-1) 4) = .ok (.null, 4) := by
  refine ⟨?_, ?_, ?_⟩
  · exact (field_index_null_rule [] (.object [("a", .number 1)]) "b" 0 2).1
      [("a", .number 1)] rfl rfl
  · exact (field_index_null_rule [] (.array [.number 7]) "x" 5 3).2.2.1
      [.number 7] rfl (Or.inl (by decide))
  · exact (field_index_null_rule [] (.array []) "x" (-1) 4).2.2.1
      [] rfl (Or.inr (by decide))

/-- C7: exactly null, false, the empty string, the empty array and the
empty object are falsy; every other value — including the number 0 — is
truthy, as observed through the `Not` evaluation rule. -/
theorem truthiness_rule :
    (∀ v : Value, v.is_truthy = false ↔
      (v = .null ∨ v = .bool false ∨ v = .string "" ∨ v = .array [] ∨ v = .object []))
    ∧ (∀ n : Int, (Value.number n).is_truthy = true)
    ∧ (∀ fns : Functions, ∀ o o2 : Nat,
        interpret fns (.number 0) (.not (.identity o2) o) = .ok (.bool false, o2)) := by
  refine ⟨?_, ?_, ?_⟩
  · intro v
    cases v with
    | null => simp [Value.is_truthy]
    | bool b => cases b <;> simp [Value.is_truthy]
    | number n => simp [Value.is_truthy]
    | string s => simp [Value.is_truthy]
    | array items => cases items <;> simp [Value.is_truthy]
    | object entries => cases entries <;> simp [Value.is_truthy]
    | expref a => simp [Value.is_truthy]
  · intro n
    rfl
  · intro fns o o2
    simp [interpret, Value.is_truthy]

/-- Witness for C7 at concrete inputs: the number 0 is truthy and the empty
string is falsy. -/
theorem truthiness_rule_witness :
    Value.is_truthy (.number 0) = true ∧ Value.is_truthy (.string "") = false :=
  ⟨truthiness_rule.2.1 0,
   (truthiness_rule.1 (.string "")).mpr (Or.inr (Or.inr (Or.inl rfl)))⟩

/-- C6: `Or` returns the left result unchanged when it is truthy, without
the right side's evaluation being observable (any error the right side
would raise never surfaces), and otherwise returns the right side's
result; `And` does the same with the roles of truthy and falsy swapped. -/
theorem or_and_short_circuit (fns : Functions) (data : Value) (l r : Ast) (o : Nat) :
    (∀ v o1, interpret fns data l = .ok (v, o1) → v.is_truthy = true →
        interpret fns data (.or l r o) = .ok (v, o1))
    ∧ (∀ v o1, interpret fns data l = .ok (v, o1) → v.is_truthy = false →
        interpret fns data (.or l r o) = interpret fns data r)
    ∧ (∀ v o1, interpret fns data l = .ok (v, o1) → v.is_truthy = false →
        interpret fns data (.and l r o) = .ok (v, o1))
    ∧ (∀ v o1, interpret fns data l = .ok (v, o1) → v.is_truthy = true →
        interpret fns data (.and l r o) = interpret fns data r) := by
  refine ⟨?_, ?_, ?_, ?_⟩ <;>
    (intro v o1 hl ht; simp [interpret, hl, ht])

/-- Witness for C6 at a concrete input: with an erroring right side (a
zero-step slice), `Or` of a truthy left and `And` of a falsy left both
return the left result and no error surfaces. -/
theorem or_and_short_circuit_witness :
    interpret [] .null (.or (.literal (.bool true) 1) (.slice none none 0 2) 0)
        = .ok (.bool true, 1)
    ∧ interpret [] .null (.and (.literal (.bool false) 1) (.slice none none 0 2) 0)
        = .ok (.bool false, 1) := by
  constructor
  · exact (or_and_short_circuit [] .null (.literal (.bool true) 1)
      (.slice none none 0 2) 0).1 (.bool true) 1 (by rw [interpret]) rfl
  · exact (or_and_short_circuit [] .null (.literal (.bool false) 1)
      (.slice none none 0 2) 0).2.2.1 (.bool false) 1 (by rw [interpret]) rfl

/-- Written from C8's words: one level of flattening — each element that is
itself an array contributes its members individually, nested arrays inside
those members are kept intact, and non-array elements are kept as-is. -/
def flattenOnceSpec : List Value → List Value
  | [] => []
  | e :: rest =>
      (match e with
       | .array members => members
       | _ => [e]) ++ flattenOnceSpec rest

lemma as_array_array (items : List Value) :
    (Value.array items).as_array = some items := rfl

lemma flattenFold_eq (l : List Value) : ∀ acc : List Value,
    l.foldl (fun collected element =>
      match element.as_array with
      | some inner_array => collected ++ inner_array
      | none => collected ++ [element]) acc = acc ++ flattenOnceSpec l := by
  induction l with
  | nil => intro acc; simp [flattenOnceSpec]
  | cons e rest ih =>
      intro acc
      rw [List.foldl_cons, ih]
      cases e <;> simp [Value.as_array, flattenOnceSpec]

/-- C8: `Flatten(n)` yields null when `n`'s result is not an array, and
otherwise flattens the result exactly one level, preserving order; in
particular flattening `[[1,2],[3,[4,5]]]` yields `[1,2,3,[4,5]]`. -/
theorem flatten_rule (fns : Functions) (data : Value) (n : Ast) (o : Nat) :
    (∀ v o1, interpret fns data n = .ok (v, o1) → v.as_array = none →
        interpret fns data (.flatten n o) = .ok (.null, o1))
    ∧ (∀ arr o1, interpret fns data n = .ok (.array arr, o1) →
        interpret fns data (.flatten n o) = .ok (.array (flattenOnceSpec arr), o1))
    ∧ flattenOnceSpec [.array [.number 1, .number 2],
        .array [.number 3, .array [.number 4, .number 5]]]
        = [.number 1, .number 2, .number 3, .array [.number 4, .number 5]] := by
  refine ⟨?_, ?_, ?_⟩
  · intro v o1 h hv
    simp [interpret, h, hv]
  · intro arr o1 h
    simp [interpret, h, as_array_array, flattenFold_eq]
  · rfl

/-- Witness for C8 at a concrete input: flattening `[[1,2],[3,[4,5]]]`
yields `[1,2,3,[4,5]]`. -/
theorem flatten_rule_witness :
    interpret [] (.array [.array [.number 1, .number 2],
        .array [.number 3, .array [.number 4, .number 5]]])
      (.flatten (.identity 1) 0)
      = .ok (.array [.number 1, .number 2, .number 3,
          .array [.number 4, .number 5]], 1) := by
  have h := (flatten_rule []
      (.array [.array [.number 1, .number 2],
        .array [.number 3, .array [.number 4, .number 5]]])
      (.identity 1) 0).2.1
      [.array [.number 1, .number 2], .array [.number 3, .array [.number 4, .number 5]]]
      1 (by rw [interpret])
  rw [h]
  rfl

/-- Written from C2's words: evaluate the right-hand side against each
element in order, collecting all results (failing fast on errors). -/
def evalEach (fns : Functions) (rhs : Ast) : List Value → Except RuntimeError (List Value)
  | [] => .ok []
  | e :: rest => do
      let (v, _) ← interpret fns e rhs
      let vs ← evalEach fns rhs rest
      .ok (v :: vs)

lemma interpretProjList_ok (fns : Functions) (rhs : Ast) : ∀ (elems : List Value)
    (off : Nat) (results : List Value), evalEach fns rhs elems = .ok results →
    ∃ o2, interpretProjList fns rhs elems off
      = .ok (results.filter (fun v => !v.is_null), o2) := by
  intro elems
  induction elems with
  | nil =>
      intro off results h
      simp [evalEach] at h
      subst h
      exact ⟨off, by rw [interpretProjList]; rfl⟩
  | cons e rest ih =>
      intro off results h
      rw [evalEach] at h
      cases h1 : interpret fns e rhs with
      | error err => rw [h1] at h; simp at h
      | ok p =>
          obtain ⟨v, o1⟩ := p
          rw [h1] at h
          simp only [ok_bind] at h
          cases h2 : evalEach fns rhs rest with
          | error err => rw [h2] at h; simp at h
          | ok rs =>
              rw [h2] at h
              simp only [ok_bind] at h
              cases h
              obtain ⟨o2, ih2⟩ := ih o1 rs h2
              refine ⟨o2, ?_⟩
              rw [interpretProjList, h1]
              simp only [ok_bind, ih2]
              cases hnull : v.is_null <;> simp [List.filter_cons, hnull]

/-- C2: `Projection(lhs, rhs)` first evaluates `lhs`; a non-array result
yields null; otherwise `rhs` is evaluated against each element in order and
the result array contains exactly the non-null results in their relative
order, null results being omitted. -/
theorem projection_rule (fns : Functions) (data : Value) (lhs rhs : Ast) (o : Nat) :
    (∀ v o1, interpret fns data lhs = .ok (v, o1) → v.as_array = none →
        interpret fns data (.projection lhs rhs o) = .ok (.null, o1))
    ∧ (∀ arr o1 results, interpret fns data lhs = .ok (.array arr, o1) →
        evalEach fns rhs arr = .ok results →
        observe (interpret fns data (.projection lhs rhs o))
          = .ok (.array (results.filter (fun v => !v.is_null)))) := by
  constructor
  · intro v o1 h hv
    simp [interpret, h, hv]
  · intro arr o1 results h hres
    obtain ⟨o2, hloop⟩ := interpretProjList_ok fns rhs arr o1 results hres
    have hmain : interpret fns data (.projection lhs rhs o)
        = .ok (.array (results.filter (fun v => !v.is_null)), o2) := by
      simp [interpret, h, as_array_array, hloop]
    rw [hmain]
    rfl

/-- Witness for C2 at a concrete input: projecting `.a` over
`[{"a":1},{},{"a":2}]` drops the null middle result and keeps `[1, 2]`. -/
theorem projection_rule_witness :
    observe (interpret []
        (.array [.object [("a", .number 1)], .object [], .object [("a", .number 2)]])
        (.projection (.identity 1) (.field "a" 3) 0))
      = .ok (.array [.number 1, .number 2]) := by
  have h := (projection_rule []
      (.array [.object [("a", .number 1)], .object [], .object [("a", .number 2)]])
      (.identity 1) (.field "a" 3) 0).2
      [.object [("a", .number 1)], .object [], .object [("a", .number 2)]] 1
      [.number 1, .null, .number 2]
      (by rw [interpret])
      (by simp +decide [evalEach, interpret, Value.get_value, List.lookup])
  rw [h]
  rfl

/-- Written from C5's words: all argument expressions evaluated eagerly
against the input, in left-to-right order (failing fast on errors). -/
def argsEval (fns : Functions) (data : Value) : List Ast → Except RuntimeError (List Value)
  | [] => .ok []
  | a :: rest => do
      let (v, _) ← interpret fns data a
      let vs ← argsEval fns data rest
      .ok (v :: vs)

lemma interpretArgs_error (fns : Functions) (data : Value) : ∀ (nodes : List Ast)
    (off : Nat) (e : RuntimeError), argsEval fns data nodes = .error e →
    interpretArgs fns data nodes off = .error e := by
  intro nodes
  induction nodes with
  | nil => intro off e h; simp [argsEval] at h
  | cons n rest ih =>
      intro off e h
      rw [argsEval] at h
      rw [interpretArgs]
      cases h1 : interpret fns data n with
      | error err =>
          rw [h1] at h
          simp only [error_bind] at h
          cases h
          simp
      | ok p =>
          obtain ⟨v, o1⟩ := p
          rw [h1] at h
          simp only [ok_bind] at h
          cases h2 : argsEval fns data rest with
          | error err =>
              rw [h2] at h
              simp only [error_bind] at h
              cases h
              simp only [ok_bind, ih o1 e h2, error_bind]
          | ok rs =>
              rw [h2] at h
              simp at h

lemma interpretArgs_ok (fns : Functions) (data : Value) : ∀ (nodes : List Ast)
    (off : Nat) (vs : List Value), argsEval fns data nodes = .ok vs →
    ∃ o2, interpretArgs fns data nodes off = .ok (vs, o2) := by
  intro nodes
  induction nodes with
  | nil =>
      intro off vs h
      simp [argsEval] at h
      subst h
      exact ⟨off, by rw [interpretArgs]⟩
  | cons n rest ih =>
      intro off vs h
      rw [argsEval] at h
      cases h1 : interpret fns data n with
      | error err => rw [h1] at h; simp at h
      | ok p =>
          obtain ⟨v, o1⟩ := p
          rw [h1] at h
          simp only [ok_bind] at h
          cases h2 : argsEval fns data rest with
          | error err => rw [h2] at h; simp at h
          | ok rs =>
              rw [h2] at h
              simp only [ok_bind] at h
              cases h
              obtain ⟨o2, ih2⟩ := ih o1 rs h2
              exact ⟨o2, by rw [interpretArgs, h1]; simp [ih2]⟩

/-- C5: `Function(name, args)` evaluates all arguments eagerly, left to
right, before any registry lookup (an argument error surfaces regardless of
the registry); an unregistered name yields `UnknownFunction` carrying the
name and the function node's own offset; a registered capability is invoked
with the evaluated arguments and the context and its result is returned
unchanged. -/
theorem function_rule (fns : Functions) (data : Value) (name : String)
    (args : List Ast) (o : Nat) :
    (∀ e, argsEval fns data args = .error e →
        interpret fns data (.function name args o) = .error e)
    ∧ (∀ vs, argsEval fns data args = .ok vs → lookupFn fns name = none →
        interpret fns data (.function name args o) = .error (.unknownFunction o name))
    ∧ (∀ vs f, argsEval fns data args = .ok vs → lookupFn fns name = some f →
        interpret fns data (.function name args o) = f vs o) := by
  refine ⟨?_, ?_, ?_⟩
  · intro e h
    rw [interpret, interpretArgs_error fns data args o e h]
    simp
  · intro vs h hlook
    obtain ⟨o2, h2⟩ := interpretArgs_ok fns data args o vs h
    rw [interpret, h2]
    simp [hlook]
  · intro vs f h hlook
    obtain ⟨o2, h2⟩ := interpretArgs_ok fns data args o vs h
    rw [interpret, h2]
    simp [hlook]

/-- Witness for C5 at concrete inputs: an unknown name yields
`UnknownFunction` with the node's offset, an argument error surfaces even
for an unknown name, and a registered capability receives the eagerly
evaluated arguments. -/
theorem function_rule_witness :
    interpret [] (.null) (.function "unknown_fn" [] 5)
        = .error (.unknownFunction 5 "unknown_fn")
    ∧ interpret [] (.null) (.function "unknown_fn" [.slice none none 0 9] 5)
        = .error (.invalidSlice 9)
    ∧ interpret [("touch", fun vs off => .ok (.array vs, off))] (.null)
        (.function "touch" [.literal (.number 1) 6, .literal (.number 2) 7] 5)
        = .ok (.array [.number 1, .number 2], 5) := by
  refine ⟨?_, ?_, ?_⟩
  · exact (function_rule [] (.null) "unknown_fn" [] 5).2.1 [] rfl rfl
  · exact (function_rule [] (.null) "unknown_fn" [.slice none none 0 9] 5).1
      (.invalidSlice 9) (by rw [argsEval, interpret, if_pos rfl]; rfl)
  · exact (function_rule [("touch", fun vs off => .ok (.array vs, off))] (.null)
      "touch" [.literal (.number 1) 6, .literal (.number 2) 7] 5).2.2
      [.number 1, .number 2] (fun vs off => .ok (.array vs, off))
      (by rw [argsEval, interpret]; simp [argsEval, interpret])
      rfl

/-- Written from C4's and C10's words: evaluates each (key, value) pair in
order against the original input, collecting the evaluated pairs (failing
fast on errors). -/
def pairsEval (fns : Functions) (data : Value) :
    List (Ast × Ast) → Except RuntimeError (List (Value × Value))
  | [] => .ok []
  | (k, v) :: rest => do
      let (kv, _) ← interpret fns data k
      let (vv, _) ← interpret fns data v
      let tail ← pairsEval fns data rest
      .ok ((kv, vv) :: tail)

/-- Extracts the string keys of a list of evaluated pairs; `none` when some
key is not a string. -/
def asStringPairs : List (Value × Value) → Option (List (String × Value))
  | [] => some []
  | (.string s, v) :: rest => (asStringPairs rest).map (fun l => (s, v) :: l)
  | _ => none

/-- The object built by `MultiHash` from its evaluated (key, value) pairs:
a left fold of sorted insertions, exactly as `BTreeMap::insert` over the
loop of the `MultiHash` arm. -/
def mhBuild (kvs : List (String × Value)) : List (String × Value) :=
  kvs.foldl (fun m p => sortedInsert p.1 p.2 m) []

lemma lookup_cons_eq (k : String) (v : Value) (t : List (String × Value)) :
    List.lookup k ((k, v) :: t) = some v := by
  simp [List.lookup]

lemma lookup_cons_ne (k0 : String) (v0 : Value) (t : List (String × Value))
    {k' : String} (h : k' ≠ k0) :
    List.lookup k' ((k0, v0) :: t) = List.lookup k' t := by
  have hb : (k' == k0) = false := beq_eq_false_iff_ne.mpr h
  simp [List.lookup, hb]

lemma sortedInsert_mem_keys (k k' : String) (v : Value) : ∀ m : List (String × Value),
    (k' ∈ (sortedInsert k v m).map Prod.fst) ↔ (k' = k ∨ k' ∈ m.map Prod.fst) := by
  intro m
  induction m with
  | nil => simp [sortedInsert]
  | cons p rest ih =>
      obtain ⟨k0, v0⟩ := p
      simp only [sortedInsert]
      split_ifs with h1 h2
      · simp
      · simp only [List.map_cons, List.mem_cons, ih]
        tauto
      · have hk : k = k0 := le_antisymm (not_lt.mp h2) (not_lt.mp h1)
        subst hk
        simp only [List.map_cons, List.mem_cons]
        tauto

lemma sortedInsert_sorted (k : String) (v : Value) : ∀ m : List (String × Value),
    (m.map Prod.fst).Sorted (· < ·) →
    ((sortedInsert k v m).map Prod.fst).Sorted (· < ·) := by
  intro m
  induction m with
  | nil => intro _; simp [sortedInsert]
  | cons p rest ih =>
      obtain ⟨k0, v0⟩ := p
      intro hs
      simp only [List.map_cons, List.sorted_cons] at hs
      obtain ⟨hall, hrest⟩ := hs
      simp only [sortedInsert]
      split_ifs with h1 h2
      · simp only [List.map_cons, List.sorted_cons, List.mem_cons]
        refine ⟨?_, hall, hrest⟩
        intro b hb
        rcases hb with rfl | hb
        · exact h1
        · exact lt_trans h1 (hall b hb)
      · simp only [List.map_cons, List.sorted_cons]
        refine ⟨?_, ih hrest⟩
        intro b hb
        rcases (sortedInsert_mem_keys k b v rest).mp hb with rfl | hb
        · exact h2
        · exact hall b hb
      · have hk : k = k0 := le_antisymm (not_lt.mp h2) (not_lt.mp h1)
        subst hk
        simp only [List.map_cons, List.sorted_cons]
        exact ⟨hall, hrest⟩

lemma sortedInsert_lookup (k k' : String) (v : Value) : ∀ m : List (String × Value),
    List.lookup k' (sortedInsert k v m)
      = if k' = k then some v else List.lookup k' m := by
  intro m
  induction m with
  | nil =>
      simp only [sortedInsert]
      by_cases h : k' = k
      · subst h
        rw [lookup_cons_eq, if_pos rfl]
      · rw [lookup_cons_ne k v [] h, if_neg h]
  | cons p rest ih =>
      obtain ⟨k0, v0⟩ := p
      simp only [sortedInsert]
      by_cases hlt : k < k0
      · rw [if_pos hlt]
        by_cases h : k' = k
        · subst h
          rw [lookup_cons_eq, if_pos rfl]
        · rw [lookup_cons_ne k v _ h, if_neg h]
      · rw [if_neg hlt]
        by_cases hgt : k0 < k
        · rw [if_pos hgt]
          by_cases h0 : k' = k0
          · subst h0
            have hne : k' ≠ k := ne_of_lt hgt
            rw [lookup_cons_eq, if_neg hne, lookup_cons_eq]
          · rw [lookup_cons_ne k0 v0 _ h0, ih, lookup_cons_ne k0 v0 rest h0]
        · rw [if_neg hgt]
          have hk : k = k0 := le_antisymm (not_lt.mp hgt) (not_lt.mp hlt)
          subst hk
          by_cases h : k' = k
          · subst h
            rw [lookup_cons_eq, if_pos rfl]
          · rw [lookup_cons_ne k v _ h, if_neg h, lookup_cons_ne k v0 rest h]

lemma mhBuild_append (l : List (String × Value)) (k : String) (v : Value) :
    mhBuild (l ++ [(k, v)]) = sortedInsert k v (mhBuild l) := by
  simp [mhBuild, List.foldl_append]

lemma mhBuild_sorted (l : List (String × Value)) :
    ((mhBuild l).map Prod.fst).Sorted (· < ·) := by
  induction l using List.reverseRecOn with
  | nil => simp [mhBuild]
  | append_singleton front p ih =>
      obtain ⟨k, v⟩ := p
      rw [mhBuild_append]
      exact sortedInsert_sorted k v _ ih

lemma mhBuild_lookup (l : List (String × Value)) (k : String) :
    List.lookup k (mhBuild l) = List.lookup k l.reverse := by
  induction l using List.reverseRecOn with
  | nil => rfl
  | append_singleton front p ih =>
      obtain ⟨k0, v0⟩ := p
      rw [mhBuild_append, sortedInsert_lookup, List.reverse_append,
        List.reverse_singleton, List.singleton_append]
      by_cases h : k = k0
      · subst h
        rw [lookup_cons_eq, if_pos rfl]
      · rw [lookup_cons_ne k0 v0 _ h, if_neg h, ih]

lemma mhBuild_mem_keys (l : List (String × Value)) (k : String) :
    k ∈ (mhBuild l).map Prod.fst ↔ k ∈ l.map Prod.fst := by
  induction l using List.reverseRecOn with
  | nil => simp [mhBuild]
  | append_singleton front p ih =>
      obtain ⟨k0, v0⟩ := p
      rw [mhBuild_append]
      rw [sortedInsert_mem_keys k0 k v0 (mhBuild front)]
      simp [ih]
      tauto

lemma interpretHash_ok (fns : Functions) (data : Value) : ∀ (pairs : List (Ast × Ast))
    (acc : List (String × Value)) (off : Nat) (kvs : List (Value × Value))
    (sps : List (String × Value)),
    pairsEval fns data pairs = .ok kvs → asStringPairs kvs = some sps →
    ∃ o2, interpretHash fns data pairs acc off
      = .ok (sps.foldl (fun m p => sortedInsert p.1 p.2 m) acc, o2) := by
  intro pairs
  induction pairs with
  | nil =>
      intro acc off kvs sps h hsp
      simp [pairsEval] at h
      subst h
      simp [asStringPairs] at hsp
      subst hsp
      refine ⟨off, ?_⟩
      rw [interpretHash]
      rfl
  | cons p rest ih =>
      obtain ⟨ka, va⟩ := p
      intro acc off kvs sps h hsp
      rw [pairsEval] at h
      cases h1 : interpret fns data ka with
      | error e => rw [h1] at h; simp at h
      | ok pk =>
        obtain ⟨kv, ko⟩ := pk
        rw [h1] at h
        simp only [ok_bind] at h
        cases h2 : interpret fns data va with
        | error e => rw [h2] at h; simp at h
        | ok pv =>
          obtain ⟨vv, vo⟩ := pv
          rw [h2] at h
          simp only [ok_bind] at h
          cases h3 : pairsEval fns data rest with
          | error e => rw [h3] at h; simp at h
          | ok tail =>
            rw [h3] at h
            simp only [ok_bind] at h
            cases h
            cases kv with
            | string s =>
                rw [asStringPairs] at hsp
                cases h4 : asStringPairs tail with
                | none => rw [h4] at hsp; simp at hsp
                | some tailS =>
                    rw [h4] at hsp
                    simp at hsp
                    subst hsp
                    obtain ⟨o2, ih2⟩ := ih (sortedInsert s vv acc) vo tail tailS h3 h4
                    refine ⟨o2, ?_⟩
                    rw [interpretHash, h1]
                    simp only [ok_bind]
                    rw [h2]
                    simp only [ok_bind]
                    exact ih2
            | null => exact Option.noConfusion hsp
            | bool b => exact Option.noConfusion hsp
            | number n => exact Option.noConfusion hsp
            | array items => exact Option.noConfusion hsp
            | object es => exact Option.noConfusion hsp
            | expref a => exact Option.noConfusion hsp

lemma interpretHash_invalid (fns : Functions) (data : Value) :
    ∀ (prePairs : List (Ast × Ast)) (acc : List (String × Value)) (off : Nat)
    (preKvs : List (Value × Value)) (preS : List (String × Value))
    (kNode vNode : Ast) (postPairs : List (Ast × Ast)) (kv vv : Value) (ko vo : Nat),
    pairsEval fns data prePairs = .ok preKvs →
    asStringPairs preKvs = some preS →
    interpret fns data kNode = .ok (kv, ko) →
    (∀ s, kv ≠ .string s) →
    interpret fns data vNode = .ok (vv, vo) →
    ∃ o2, interpretHash fns data (prePairs ++ (kNode, vNode) :: postPairs) acc off
      = .error (.invalidKey o2 kv.get_type) := by
  intro prePairs
  induction prePairs with
  | nil =>
      intro acc off preKvs preS kNode vNode postPairs kv vv ko vo hp hpre hK hns hV
      refine ⟨vo, ?_⟩
      rw [List.nil_append, interpretHash, hK]
      simp only [ok_bind]
      rw [hV]
      simp only [ok_bind]
  | cons p rest ih =>
      obtain ⟨ka, va⟩ := p
      intro acc off preKvs preS kNode vNode postPairs kv vv ko vo hp hpre hK hns hV
      rw [pairsEval] at hp
      cases h1 : interpret fns data ka with
      | error e => rw [h1] at hp; simp at hp
      | ok pk =>
        obtain ⟨kv1, ko1⟩ := pk
        rw [h1] at hp
        simp only [ok_bind] at hp
        cases h2 : interpret fns data va with
        | error e => rw [h2] at hp; simp at hp
        | ok pv =>
          obtain ⟨vv1, vo1⟩ := pv
          rw [h2] at hp
          simp only [ok_bind] at hp
          cases h3 : pairsEval fns data rest with
          | error e => rw [h3] at hp; simp at hp
          | ok tail =>
            rw [h3] at hp
            simp only [ok_bind] at hp
            cases hp
            cases kv1 with
            | string s =>
                rw [asStringPairs] at hpre
                cases h4 : asStringPairs tail with
                | none => rw [h4] at hpre; simp at hpre
                | some tailS =>
                    rw [h4] at hpre
                    simp at hpre
                    obtain ⟨o2, ih2⟩ := ih (sortedInsert s vv1 acc) vo1 tail tailS
                      kNode vNode postPairs kv vv ko vo h3 h4 hK hns hV
                    refine ⟨o2, ?_⟩
                    rw [List.cons_append, interpretHash, h1]
                    simp only [ok_bind]
                    rw [h2]
                    simp only [ok_bind]
                    exact ih2
            | null => exact Option.noConfusion hpre
            | bool b => exact Option.noConfusion hpre
            | number n => exact Option.noConfusion hpre
            | array items => exact Option.noConfusion hpre
            | object es => exact Option.noConfusion hpre
            | expref a => exact Option.noConfusion hpre

/-- Detects an `InvalidKey` outcome, of any offset and payload. -/
def err_is_invalid_key : Except RuntimeError (Value × Nat) → Bool
  | .error (.invalidKey _ _) => true
  | _ => false

/-- Counterexample to C4 as stated: in
`MultiHash [(key: literal 5, value: 0-step slice)]` over a non-null input
the key expression evaluates to the non-string number 5, yet evaluation
does not fail with `InvalidKey` — the value expression is evaluated first
and its `InvalidSlice` error propagates instead. -/
theorem multihash_rule_counterexample :
    interpret [] (.bool true)
        (.multiHash [(.literal (.number 5) 2, .slice none none 0 4)] 0)
      = .error (.invalidSlice 4)
    ∧ err_is_invalid_key (interpret [] (.bool true)
        (.multiHash [(.literal (.number 5) 2, .slice none none 0 4)] 0)) = false := by
  have h : interpret [] (.bool true)
      (.multiHash [(.literal (.number 5) 2, .slice none none 0 4)] 0)
      = .error (.invalidSlice 4) := by
    simp [interpret, interpretHash, Value.is_null]
  exact ⟨h, by rw [h]; rfl⟩

/-- C4 (amended): `MultiHash` over a null input yields null; otherwise the
(key, value) pairs are evaluated in order against the original input, key
before value, and — provided the corresponding value expression evaluates
without error (a value-expression error propagates instead) — a key that
evaluated to a non-string value fails the evaluation with `InvalidKey`
carrying the observed type, the pairs after it never being evaluated (they
are unconstrained here); when every key evaluates to a string the result
is an object whose keys are in sorted order. -/
theorem multihash_rule (fns : Functions) (data : Value)
    (pairs : List (Ast × Ast)) (o : Nat) :
    (data.is_null = true → interpret fns data (.multiHash pairs o) = .ok (.null, o))
    ∧ (∀ prePairs kNode vNode postPairs preKvs preS kv vv ko vo,
        data.is_null = false →
        pairs = prePairs ++ (kNode, vNode) :: postPairs →
        pairsEval fns data prePairs = .ok preKvs →
        asStringPairs preKvs = some preS →
        interpret fns data kNode = .ok (kv, ko) →
        (∀ s, kv ≠ .string s) →
        interpret fns data vNode = .ok (vv, vo) →
        observe (interpret fns data (.multiHash pairs o))
          = .error (.invalidKey kv.get_type))
    ∧ (∀ kvs sps, data.is_null = false →
        pairsEval fns data pairs = .ok kvs →
        asStringPairs kvs = some sps →
        observe (interpret fns data (.multiHash pairs o)) = .ok (.object (mhBuild sps))
          ∧ ((mhBuild sps).map Prod.fst).Sorted (· < ·)) := by
  refine ⟨?_, ?_, ?_⟩
  · intro h
    simp [interpret, h]
  · intro prePairs kNode vNode postPairs preKvs preS kv vv ko vo hnull hsplit
      hp hpre hK hns hV
    subst hsplit
    obtain ⟨o2, hh⟩ := interpretHash_invalid fns data prePairs [] o preKvs preS
      kNode vNode postPairs kv vv ko vo hp hpre hK hns hV
    simp [interpret, hnull, hh, observe, RuntimeError.kind]
  · intro kvs sps hnull hp hsp
    obtain ⟨o2, hh⟩ := interpretHash_ok fns data pairs [] o kvs sps hp hsp
    refine ⟨?_, mhBuild_sorted sps⟩
    simp [interpret, hnull, hh, observe, mhBuild]

/-- Witness for C4 (amended) at concrete inputs: a non-string key whose own
value evaluates successfully yields `InvalidKey` carrying "number" even
though a later pair's value expression (a 0-step slice) would error — the
later pair is never reached; and an all-string-keys hash builds the object
in sorted key order. -/
theorem multihash_rule_witness :
    observe (interpret [] (.bool true)
        (.multiHash [(.literal (.number 5) 2, .literal .null 3),
                     (.literal (.string "a") 4, .slice none none 0 6)] 0))
      = .error (.invalidKey "number")
    ∧ observe (interpret [] (.bool true)
        (.multiHash [(.literal (.string "b") 2, .literal (.number 1) 3),
                     (.literal (.string "a") 4, .literal (.number 2) 5)] 0))
      = .ok (.object [("a", .number 2), ("b", .number 1)]) := by
  constructor
  · exact (multihash_rule [] (.bool true)
      [(.literal (.number 5) 2, .literal .null 3),
       (.literal (.string "a") 4, .slice none none 0 6)] 0).2.1
      [] (.literal (.number 5) 2) (.literal .null 3)
      [(.literal (.string "a") 4, .slice none none 0 6)]
      [] [] (.number 5) .null 2 3 rfl rfl rfl rfl
      (by rw [interpret]) (fun s h => by cases h) (by rw [interpret])
  · have h := ((multihash_rule [] (.bool true)
      [(.literal (.string "b") 2, .literal (.number 1) 3),
       (.literal (.string "a") 4, .literal (.number 2) 5)] 0).2.2
      [(.string "b", .number 1), (.string "a", .number 2)]
      [("b", .number 1), ("a", .number 2)] rfl
      (by simp [pairsEval, interpret]) rfl).1
    rw [h]
    simp +decide [mhBuild, sortedInsert, String.lt_iff_toList_lt]

/-- C10: in a `MultiHash` whose keys all evaluate to strings, a later pair
with the same key replaces the earlier one: the built object looks up every
key to its last-written value, and contains exactly one entry per distinct
key of the evaluated pairs. -/
theorem multihash_last_key_wins (fns : Functions) (data : Value)
    (pairs : List (Ast × Ast)) (o : Nat) (kvs : List (Value × Value))
    (sps : List (String × Value)) :
    data.is_null = false →
    pairsEval fns data pairs = .ok kvs →
    asStringPairs kvs = some sps →
    observe (interpret fns data (.multiHash pairs o)) = .ok (.object (mhBuild sps))
    ∧ (∀ k, List.lookup k (mhBuild sps) = List.lookup k sps.reverse)
    ∧ ((mhBuild sps).map Prod.fst).Nodup
    ∧ (∀ k, k ∈ (mhBuild sps).map Prod.fst ↔ k ∈ sps.map Prod.fst) := by
  intro hnull hp hsp
  refine ⟨?_, fun k => mhBuild_lookup sps k, ?_, fun k => mhBuild_mem_keys sps k⟩
  · obtain ⟨o2, hh⟩ := interpretHash_ok fns data pairs [] o kvs sps hp hsp
    simp [interpret, hnull, hh, observe, mhBuild]
  · exact List.Pairwise.imp (fun hlt => ne_of_lt hlt) (mhBuild_sorted sps)

/-- Witness for C10 at a concrete input: a hash with the key "a" written
twice holds only the later value, and looks "a" up to it. -/
theorem multihash_last_key_wins_witness :
    observe (interpret [] (.bool true)
        (.multiHash [(.literal (.string "a") 1, .literal (.number 1) 2),
                     (.literal (.string "a") 3, .literal (.number 2) 4)] 0))
      = .ok (.object [("a", .number 2)])
    ∧ List.lookup "a" (mhBuild [("a", .number 1), ("a", .number 2)])
        = some (.number 2) := by
  have h := multihash_last_key_wins [] (.bool true)
      [(.literal (.string "a") 1, .literal (.number 1) 2),
       (.literal (.string "a") 3, .literal (.number 2) 4)] 0
      [(.string "a", .number 1), (.string "a", .number 2)]
      [("a", .number 1), ("a", .number 2)]
      rfl (by simp [pairsEval, interpret]) rfl
  constructor
  · rw [h.1]
    simp +decide [mhBuild, sortedInsert, String.lt_iff_toList_lt]
  · rw [h.2.1 "a"]
    rfl

end Jmespath
